import Mathlib

/-!
Verification of the urlShort storage engine (file backend) and short-code
generator, shallowly embedded from the Go sources:

* `internal/models/models.go`          — the `SavedURL` record
* `internal/storage/storage.go`        — the `URLMapKey` composite key
* `internal/storage/file/file_storager.go` — the file backend (`FileStorage`)
* `internal/serverapi/serverapi.go`    — `GenerateShortURL`

Modelling notes.
The Go `FileStorage` couples an in-memory map `URLMap` with an append-only
log file; we model the map as an association list with Go-map semantics
(update in place, insert appends) and the log file's current contents as a
list of lines carried inside the state.  The mutex, the file path, the
logger and I/O failure paths are not modelled: every operation is the
success path of the Go code.  Go map iteration order is unspecified; the
model fixes the list order, and theorems whose truth could depend on the
iteration order carry a uniqueness hypothesis making the choice immaterial.
-/

namespace UrlShort

/-- `models.SavedURL`: one shortened URL record, as persisted one-per-line. -/
structure SavedURL where
  uuid : Int
  shortURL : String
  originalURL : String
  userID : Int
  deleted : Bool
deriving DecidableEq, Repr

/-- `storage.URLMapKey`: the composite key `(ShortURL, UserID)`. -/
structure URLMapKey where
  shortURL : String
  userID : Int
deriving DecidableEq, Repr

/-- The zero value of `models.SavedURL`, what `json.Unmarshal` leaves behind
when it fails to parse a line. -/
def zeroSavedURL : SavedURL := ⟨0, "", "", 0, false⟩

/-- The in-memory index `map[storage.URLMapKey]models.SavedURL`, as an
association list with unique keys. -/
abbrev URLMap := List (URLMapKey × SavedURL)

/-- Go map read `m[k]` (the `ok` of the comma-ok form is `isSome`). -/
def mapLookup : URLMap → URLMapKey → Option SavedURL
  | [], _ => none
  | p :: rest, k => if p.1 = k then some p.2 else mapLookup rest k

/-- Go map write `m[k] = v`: update in place when the key is present,
append otherwise. -/
def mapInsert : URLMap → URLMapKey → SavedURL → URLMap
  | [], k, v => [(k, v)]
  | p :: rest, k, v => if p.1 = k then (k, v) :: rest else p :: mapInsert rest k v

/-- One line of the log file: either it parses as a `SavedURL` (the JSON
object `json.Marshal` wrote) or it is unparseable. -/
inductive LogLine where
  | ok (r : SavedURL)
  | bad
deriving DecidableEq, Repr

/-- What the replay loop's `json.Unmarshal` leaves in `result`: the parsed
record, or the zero value when unmarshalling fails (the Go code logs the
error but does not skip the line). -/
def parseLine : LogLine → SavedURL
  | .ok r => r
  | .bad => zeroSavedURL

/-- The mutable state of `file.FileStorage`, the log file's contents
included (`filePath` itself and the mutex are not modelled). -/
structure FileStorage where
  isWithFile : Bool
  URLMap : URLMap
  lastUserID : Int
  usedUserIDs : List Int
  file : List LogLine
deriving DecidableEq, Repr

/-- One iteration of the scan loop of `FileStorage.ReadAllData`: unmarshal
the line, insert the result into `URLMap` under its own key, remember its
user id, and keep the running maximum user id (the loop's `curMax`). -/
def applyLogLine (st : FileStorage) (line : LogLine) : FileStorage :=
  let result := parseLine line
  { st with
    URLMap := mapInsert st.URLMap ⟨result.shortURL, result.userID⟩ result
    usedUserIDs := st.usedUserIDs ++ [result.userID]
    lastUserID := if result.userID > st.lastUserID then result.userID else st.lastUserID }

/-- `FileStorage.ReadAllData`: replay every line of the log file into the
in-memory state. -/
def readAllData (st : FileStorage) : FileStorage :=
  st.file.foldl applyLogLine st

/-- `file.NewFileStorage`: construct the backend with `lastUserID = 0`, no
used ids, the given map, and replay the log file. -/
def newFileStorage (isWithFile : Bool) (urlMap : URLMap) (file : List LogLine) : FileStorage :=
  readAllData
    { isWithFile := isWithFile, URLMap := urlMap, lastUserID := 0
      usedUserIDs := [], file := file }

/-- `file.NewFileStoragerWithoutReadingData`: `lastUserID = 1`,
`usedUserIDs = [1]`, no replay. -/
def newFileStoragerWithoutReadingData (isWithFile : Bool) (urlMap : URLMap)
    (file : List LogLine) : FileStorage :=
  { isWithFile := isWithFile, URLMap := urlMap, lastUserID := 1
    usedUserIDs := [1], file := file }

/-- `FileStorage.ReadAllDataForUserID`: scan the log file and collect, in
file order, every line whose unmarshalled `UserID` matches. -/
def readAllDataForUserID (st : FileStorage) (userID : Int) : List SavedURL :=
  (st.file.map parseLine).filter (fun r => r.userID = userID)

/-- `FileStorage.GetURL`: scoped lookup of `URLMap[{shortURL, userID}]`;
returns the record's `OriginalURL` and the comma-ok flag (the zero value's
empty `OriginalURL` when absent). -/
def getURL (st : FileStorage) (shortURL : String) (userID : Int) : String × Bool :=
  match mapLookup st.URLMap ⟨shortURL, userID⟩ with
  | some r => (r.originalURL, true)
  | none => ("", false)

/-- `FileStorage.Save`: append the record as one JSON line to the log file
(called by `StoreURL` unconditionally; `json.Marshal` cannot fail here and
I/O failures are not modelled). -/
def save (st : FileStorage) (savedURL : SavedURL) : FileStorage :=
  { st with file := st.file ++ [LogLine.ok savedURL] }

/-- The record literal `StoreURL` builds on a miss: `UUID = len(URLMap)`,
`Deleted = false`. -/
def storedRecord (st : FileStorage) (shortURL originalURL : String) (userID : Int) :
    SavedURL :=
  ⟨(st.URLMap.length : Int), shortURL, originalURL, userID, false⟩

/-- `FileStorage.StoreURL`: if `(shortURL, userID)` is already present,
return `true` without mutation; otherwise insert a fresh record with
`UUID = len(URLMap)` and `Deleted = false`, append it to the log, and
return `false`. -/
def storeURL (st : FileStorage) (shortURL originalURL : String) (userID : Int) :
    Bool × FileStorage :=
  if (getURL st shortURL userID).2 then
    (true, st)
  else
    let savedURL := storedRecord st shortURL originalURL userID
    let st1 := { st with URLMap := mapInsert st.URLMap ⟨shortURL, userID⟩ savedURL }
    (false, save st1 savedURL)

/-- `FileStorage.findEntityByShortURL`: first entry of the map whose key's
`ShortURL` matches, ignoring the owner (map iteration order fixed as list
order, see the header note). -/
def findByShortURL : URLMap → String → Option (URLMapKey × SavedURL)
  | [], _ => none
  | p :: rest, c => if p.1.shortURL = c then some p else findByShortURL rest c

/-- `FileStorage.GetURLForAnyUserID`: owner-agnostic lookup; returns the
found record (or the zero value) and the found flag. -/
def getURLForAnyUserID (st : FileStorage) (shortURL : String) : SavedURL × Bool :=
  match findByShortURL st.URLMap shortURL with
  | some p => (p.2, true)
  | none => (zeroSavedURL, false)

/-- `FileStorage.findUserID` / `IsItCorrectUserID`: membership of the id in
`usedUserIDs`. -/
def isItCorrectUserID (st : FileStorage) (userID : Int) : Bool :=
  st.usedUserIDs.any (fun usedUserID => usedUserID = userID)

/-- Reduction of an integer into Go's `int` (64-bit two's complement):
Go's `+` on `int` wraps at `2 ^ 63`. -/
def int64Wrap (n : Int) : Int := (n + 2 ^ 63) % 2 ^ 64 - 2 ^ 63

/-- `FileStorage.GetLastUserID`: increment `lastUserID` with Go's wrapping
64-bit `int` addition and return it (the error is always `nil`). -/
def getLastUserID (st : FileStorage) : Int × FileStorage :=
  let st1 := { st with lastUserID := int64Wrap (st.lastUserID + 1) }
  (st1.lastUserID, st1)

/-- `FileStorage.SaveUserID`: append the id to `usedUserIDs`. -/
def saveUserID (st : FileStorage) (userID : Int) : FileStorage :=
  { st with usedUserIDs := st.usedUserIDs ++ [userID] }

/-- The first loop of `FileStorage.DeleteByUserID`, for one short URL: find
any entry with that code, and if found write a `Deleted = true` copy of it
under the key `(shortURL, userID)` of the requesting user. -/
def deleteMarkOne (userID : Int) (st : FileStorage) (shortURL : String) : FileStorage :=
  match findByShortURL st.URLMap shortURL with
  | some p =>
      { st with URLMap := mapInsert st.URLMap ⟨shortURL, userID⟩ { p.2 with deleted := true } }
  | none => st

/-- `FileStorage.DeleteByUserID`: mark the requested codes deleted in the
map, then, when the backend writes to a file, append the now-present
`(shortURL, userID)` records to the log. -/
def deleteByUserID (st : FileStorage) (shortURLs : List String) (userID : Int) : FileStorage :=
  let st1 := shortURLs.foldl (deleteMarkOne userID) st
  if st1.isWithFile then
    let filteredStore := shortURLs.filterMap (fun c => mapLookup st1.URLMap ⟨c, userID⟩)
    filteredStore.foldl save st1
  else st1

/-!
`serverapi.GenerateShortURL` embeds as the composition of SHA-256
(`crypto/sha256.Sum256`), URL-safe unpadded base64
(`base64.RawURLEncoding.EncodeToString`) and truncation to 8 characters.
Machine words are `Nat` reduced modulo `2 ^ 32` where the Go code wraps.
-/

/-- Truncate to a 32-bit word. -/
def w32 (n : Nat) : Nat := n % 4294967296

/-- 32-bit rotate right. -/
def rot32 (x n : Nat) : Nat := w32 ((x >>> n) ||| (x <<< (32 - n)))

/-- SHA-256 message-schedule sigma functions. -/
def sigA (x : Nat) : Nat := (rot32 x 7) ^^^ (rot32 x 18) ^^^ (x >>> 3)

/-- SHA-256 message-schedule sigma functions. -/
def sigB (x : Nat) : Nat := (rot32 x 17) ^^^ (rot32 x 19) ^^^ (x >>> 10)

/-- SHA-256 compression Sigma functions. -/
def sumA (x : Nat) : Nat := (rot32 x 2) ^^^ (rot32 x 13) ^^^ (rot32 x 22)

/-- SHA-256 compression Sigma functions. -/
def sumB (x : Nat) : Nat := (rot32 x 6) ^^^ (rot32 x 11) ^^^ (rot32 x 25)

/-- SHA-256 choice function (the complement is taken within 32 bits). -/
def chFn (x y z : Nat) : Nat := (x &&& y) ^^^ ((x ^^^ 4294967295) &&& z)

/-- SHA-256 majority function. -/
def majFn (x y z : Nat) : Nat := (x &&& y) ^^^ (x &&& z) ^^^ (y &&& z)

/-- The 64 SHA-256 round constants (decimal). -/
def sha256K : List Nat :=
  [1116352408, 1899447441, 3049323471, 3921009573, 961987163, 1508970993,
   2453635748, 2870763221, 3624381080, 310598401, 607225278, 1426881987,
   1925078388, 2162078206, 2614888103, 3248222580, 3835390401, 4022224774,
   264347078, 604807628, 770255983, 1249150122, 1555081692, 1996064986,
   2554220882, 2821834349, 2952996808, 3210313671, 3336571891, 3584528711,
   113926993, 338241895, 666307205, 773529912, 1294757372, 1396182291,
   1695183700, 1986661051, 2177026350, 2456956037, 2730485921, 2820302411,
   3259730800, 3345764771, 3516065817, 3600352804, 4094571909, 275423344,
   430227734, 506948616, 659060556, 883997877, 958139571, 1322822218,
   1537002063, 1747873779, 1955562222, 2024104815, 2227730452, 2361852424,
   2428436474, 2756734187, 3204031479, 3329325298]

/-- The SHA-256 initial hash value (decimal). -/
def sha256H0 : List Nat :=
  [1779033703, 3144134277, 1013904242, 2773480762,
   1359893119, 2600822924, 528734635, 1541459225]

/-- One extension step of the message schedule; the schedule built so far is
held most-recent-first. -/
def scheduleStep (w : List Nat) : List Nat :=
  w32 (sigB (w.getD 1 0) + w.getD 6 0 + sigA (w.getD 14 0) + w.getD 15 0) :: w

/-- Extend a 16-word block to the full 64-word schedule, in order. -/
def fullSchedule (block : List Nat) : List Nat :=
  ((List.range 48).foldl (fun acc _ => scheduleStep acc) block.reverse).reverse

/-- One SHA-256 round on the state `[a, b, c, d, e, f, g, h]`. -/
def sha256Round (s : List Nat) (w k : Nat) : List Nat :=
  match s with
  | [a, b, c, d, e, f, g, h] =>
      let t1 := w32 (h + sumB e + chFn e f g + k + w)
      let t2 := w32 (sumA a + majFn a b c)
      [w32 (t1 + t2), a, b, c, w32 (d + t1), e, f, g]
  | s => s

/-- Compress one 16-word block into the running hash. -/
def compressBlock (h : List Nat) (block : List Nat) : List Nat :=
  let s := ((fullSchedule block).zip sha256K).foldl
    (fun s p => sha256Round s p.1 p.2) h
  (h.zip s).map (fun p => w32 (p.1 + p.2))

/-- The `k`-byte big-endian encoding of `n`. -/
def beBytes (k : Nat) (n : Nat) : List Nat :=
  (List.range k).map (fun i => (n >>> (8 * (k - 1 - i))) % 256)

/-- SHA-256 padding: append `0x80`, zeros to 56 mod 64, and the 8-byte
big-endian bit length. -/
def padMessage (msg : List Nat) : List Nat :=
  let padZeros := (120 - (msg.length + 1) % 64) % 64
  msg ++ [128] ++ List.replicate padZeros 0 ++ beBytes 8 (8 * msg.length)

/-- Pack big-endian bytes into 32-bit words (the input length is a multiple
of four after padding). -/
def toWords : List Nat → List Nat
  | a :: b :: c :: d :: rest => (((a * 256 + b) * 256 + c) * 256 + d) :: toWords rest
  | _ => []

/-- Split a padded word stream into 16-word blocks. -/
def toBlocks : List Nat → List (List Nat)
  | w0 :: w1 :: w2 :: w3 :: w4 :: w5 :: w6 :: w7 ::
    w8 :: w9 :: w10 :: w11 :: w12 :: w13 :: w14 :: w15 :: rest =>
      [w0, w1, w2, w3, w4, w5, w6, w7, w8, w9, w10, w11, w12, w13, w14, w15]
        :: toBlocks rest
  | [] => []
  | l => [l]

/-- `sha256.Sum256`: the 32-byte digest of a byte string. -/
def sha256Bytes (msg : List Nat) : List Nat :=
  let blocks := toBlocks (toWords (padMessage msg))
  ((blocks.foldl compressBlock sha256H0).map (beBytes 4)).flatten

/-- The URL-safe base64 alphabet of `base64.RawURLEncoding`. -/
def b64Char (n : Nat) : Char :=
  ("ABCDEFGHIJKLMNOPQRSTUVWXYZabcdefghijklmnopqrstuvwxyz0123456789-_").data.getD n 'A'

/-- Unpadded URL-safe base64 encoding (`base64.RawURLEncoding`). -/
def b64Encode : List Nat → List Char
  | a :: b :: c :: rest =>
      let n := (a * 256 + b) * 256 + c
      b64Char (n / 262144) :: b64Char (n / 4096 % 64) :: b64Char (n / 64 % 64)
        :: b64Char (n % 64) :: b64Encode rest
  | [a, b] =>
      let n := a * 1024 + b * 4
      [b64Char (n / 4096), b64Char (n / 64 % 64), b64Char (n % 64)]
  | [a] =>
      let n := a * 16
      [b64Char (n / 64), b64Char (n % 64)]
  | [] => []

/-- The raw bytes of a string; equal to Go's `[]byte(url)` (UTF-8) for the
ASCII strings this development evaluates on. -/
def stringBytes (s : String) : List Nat := s.data.map Char.toNat

/-- `serverapi.GenerateShortURL`: the first 8 characters of the URL-safe,
unpadded base64 encoding of the SHA-256 digest of the URL's bytes. -/
def GenerateShortURL (url : String) : String :=
  String.mk ((b64Encode (sha256Bytes (stringBytes url))).take 8)

/-!  Generic lemmas about the association-list map. -/

theorem mapLookup_mapInsert_self (m : URLMap) (k : URLMapKey) (v : SavedURL) :
    mapLookup (mapInsert m k v) k = some v := by
  induction m with
  | nil => simp [mapInsert, mapLookup]
  | cons p rest ih =>
      by_cases h : p.1 = k
      · simp [mapInsert, mapLookup, h]
      · simp [mapInsert, mapLookup, h, ih]

theorem mapLookup_mapInsert_ne (m : URLMap) (k k' : URLMapKey) (v : SavedURL)
    (h : k' ≠ k) : mapLookup (mapInsert m k v) k' = mapLookup m k' := by
  induction m with
  | nil =>
      simp only [mapInsert, mapLookup, if_neg (fun hh : k = k' => h hh.symm)]
  | cons p rest ih =>
      by_cases hp : p.1 = k
      · have hk : ¬ (k = k') := fun hh => h hh.symm
        have hpk' : ¬ (p.1 = k') := by rw [hp]; exact fun hh => h hh.symm
        simp only [mapInsert, mapLookup, if_pos hp, if_neg hk, if_neg hpk']
      · by_cases hp' : p.1 = k'
        · simp only [mapInsert, mapLookup, if_neg hp, if_pos hp']
        · simp only [mapInsert, mapLookup, if_neg hp, if_neg hp']
          exact ih

theorem mapInsert_of_not_mem (m : URLMap) (k : URLMapKey) (v : SavedURL)
    (h : ∀ p ∈ m, p.1 ≠ k) : mapInsert m k v = m ++ [(k, v)] := by
  induction m with
  | nil => simp [mapInsert]
  | cons p rest ih =>
      have hp : p.1 ≠ k := h p (List.mem_cons_self p rest)
      simp only [mapInsert, if_neg hp, List.cons_append, List.cons.injEq, true_and]
      exact ih (fun q hq => h q (List.mem_cons_of_mem p hq))

theorem mapLookup_of_unique (m : URLMap) (q : URLMapKey × SavedURL)
    (hq : q ∈ m) (huniq : ∀ p ∈ m, p.1 = q.1 → p = q) :
    mapLookup m q.1 = some q.2 := by
  induction m with
  | nil => cases hq
  | cons p rest ih =>
      by_cases h : p.1 = q.1
      · have : p = q := huniq p (List.mem_cons_self p rest) h
        simp [mapLookup, h, this]
      · have hq' : q ∈ rest := by
          rcases List.mem_cons.mp hq with h1 | h1
          · exact absurd (h1 ▸ rfl) h
          · exact h1
        simp [mapLookup, h]
        exact ih hq' (fun r hr hrk => huniq r (List.mem_cons_of_mem p hr) hrk)

theorem findByShortURL_of_unique (m : URLMap) (c : String)
    (q : URLMapKey × SavedURL) (hq : q ∈ m) (hqc : q.1.shortURL = c)
    (huniq : ∀ p ∈ m, p.1.shortURL = c → p = q) :
    findByShortURL m c = some q := by
  induction m with
  | nil => cases hq
  | cons p rest ih =>
      by_cases h : p.1.shortURL = c
      · have heq : p = q := huniq p (List.mem_cons_self p rest) h
        subst heq
        simp [findByShortURL, h]
      · have hq' : q ∈ rest := by
          rcases List.mem_cons.mp hq with h1 | h1
          · exact absurd (h1 ▸ hqc) h
          · exact h1
        simp [findByShortURL, h]
        exact ih hq' (fun r hr hrk => huniq r (List.mem_cons_of_mem p hr) hrk)

theorem findByShortURL_eq_none (m : URLMap) (c : String)
    (h : ∀ p ∈ m, p.1.shortURL ≠ c) : findByShortURL m c = none := by
  induction m with
  | nil => rfl
  | cons p rest ih =>
      have hp := h p (List.mem_cons_self p rest)
      simp [findByShortURL, hp]
      exact ih (fun q hq => h q (List.mem_cons_of_mem p hq))

/-!  Scenario lemmas for `storeURL` and `deleteByUserID`. -/

theorem storeURL_of_absent (st : FileStorage) (c u : String) (uid : Int)
    (h : mapLookup st.URLMap ⟨c, uid⟩ = none) :
    storeURL st c u uid =
      (false,
        { st with
          URLMap := mapInsert st.URLMap ⟨c, uid⟩ (storedRecord st c u uid)
          file := st.file ++ [LogLine.ok (storedRecord st c u uid)] }) := by
  simp [storeURL, getURL, h, save]

theorem storeURL_of_present (st : FileStorage) (c u : String) (uid : Int)
    (r : SavedURL) (h : mapLookup st.URLMap ⟨c, uid⟩ = some r) :
    storeURL st c u uid = (true, st) := by
  simp [storeURL, getURL, h]

theorem deleteByUserID_single (st : FileStorage) (c : String) (uid : Int)
    (q : URLMapKey × SavedURL) (h : findByShortURL st.URLMap c = some q) :
    deleteByUserID st [c] uid =
      { st with
        URLMap := mapInsert st.URLMap ⟨c, uid⟩ { q.2 with deleted := true }
        file := st.file ++
          if st.isWithFile then [LogLine.ok { q.2 with deleted := true }] else [] } := by
  by_cases hw : st.isWithFile
  · simp [deleteByUserID, deleteMarkOne, h, hw,
      mapLookup_mapInsert_self, save]
  · simp [deleteByUserID, deleteMarkOne, h, hw]

/-!  Replay: the in-memory index rebuilt by `ReadAllData`. -/

/-- The effect of one `ReadAllData` loop iteration on the index alone. -/
def rebuildStep (m : URLMap) (line : LogLine) : URLMap :=
  let r := parseLine line
  mapInsert m ⟨r.shortURL, r.userID⟩ r

/-- The index rebuilt by replaying a log from an empty map. -/
def rebuildMap (log : List LogLine) : URLMap :=
  log.foldl rebuildStep []

/-- Modelled from the spec: `later lines for the same (short_url, user_id)
key supersede earlier ones on replay` — the authoritative record for a key
is the last log line carrying that key. -/
def lastLineForKey (log : List LogLine) (k : URLMapKey) : Option SavedURL :=
  ((log.map parseLine).reverse).find?
    (fun r => (⟨r.shortURL, r.userID⟩ : URLMapKey) = k)

theorem foldl_applyLogLine_URLMap (lines : List LogLine) (st : FileStorage) :
    (lines.foldl applyLogLine st).URLMap = lines.foldl rebuildStep st.URLMap := by
  induction lines generalizing st with
  | nil => rfl
  | cons l rest ih => simp only [List.foldl_cons]; rw [ih]; rfl

theorem mapLookup_foldl_rebuildStep (log : List LogLine) (m : URLMap)
    (k : URLMapKey) :
    mapLookup (log.foldl rebuildStep m) k =
      (lastLineForKey log k).or (mapLookup m k) := by
  induction log generalizing m with
  | nil => simp [lastLineForKey, Option.none_or]
  | cons l rest ih =>
      have hsplit : lastLineForKey (l :: rest) k =
          (lastLineForKey rest k).or
            (if (⟨(parseLine l).shortURL, (parseLine l).userID⟩ : URLMapKey) = k
             then some (parseLine l) else none) := by
        simp only [lastLineForKey, List.map_cons, List.reverse_cons, List.find?_append]
        by_cases hk : (⟨(parseLine l).shortURL, (parseLine l).userID⟩ : URLMapKey) = k
        · simp [List.find?, hk]
        · simp [List.find?, hk]
      rw [List.foldl_cons, ih, hsplit, Option.or_assoc]
      congr 1
      by_cases hk : (⟨(parseLine l).shortURL, (parseLine l).userID⟩ : URLMapKey) = k
      · rw [if_pos hk, rebuildStep]
        rw [hk] at *
        simp [mapLookup_mapInsert_self, Option.or]
      · rw [if_neg hk, rebuildStep]
        rw [mapLookup_mapInsert_ne _ _ _ _ (fun hh => hk hh.symm)]
        simp [Option.none_or]

/-- A sequence of `StoreURL` calls, each op a `(shortURL, originalURL,
userID)` triple. -/
def execStores (st : FileStorage) (ops : List (String × String × Int)) : FileStorage :=
  ops.foldl (fun s op => (storeURL s op.1 op.2.1 op.2.2).2) st

/-- A freshly constructed file backend over an empty map and an absent
(empty) log file. -/
def initialStorage (b : Bool) : FileStorage := newFileStorage b [] []

theorem newFileStorage_URLMap (b : Bool) (m : URLMap) (log : List LogLine) :
    (newFileStorage b m log).URLMap = log.foldl rebuildStep m := by
  unfold newFileStorage readAllData
  exact foldl_applyLogLine_URLMap log _

theorem storeURL_preserves_rebuild (st : FileStorage) (c u : String) (uid : Int)
    (h : ∀ k, mapLookup (rebuildMap st.file) k = mapLookup st.URLMap k) :
    ∀ k, mapLookup (rebuildMap (storeURL st c u uid).2.file) k
        = mapLookup ((storeURL st c u uid).2.URLMap) k := by
  intro k
  cases hl : mapLookup st.URLMap ⟨c, uid⟩ with
  | some r => rw [storeURL_of_present st c u uid r hl]; exact h k
  | none =>
      rw [storeURL_of_absent st c u uid hl]
      show mapLookup (rebuildMap (st.file ++ [LogLine.ok (storedRecord st c u uid)])) k = _
      unfold rebuildMap
      rw [List.foldl_append]
      simp only [List.foldl_cons, List.foldl_nil]
      by_cases hk : k = (⟨c, uid⟩ : URLMapKey)
      · subst hk
        simp [rebuildStep, parseLine, storedRecord, mapLookup_mapInsert_self]
      · show mapLookup (rebuildStep (rebuildMap st.file) (LogLine.ok (storedRecord st c u uid))) k = _
        rw [rebuildStep]
        simp only [parseLine, storedRecord]
        rw [mapLookup_mapInsert_ne _ _ _ _ hk, mapLookup_mapInsert_ne _ _ _ _ hk]
        exact h k

theorem execStores_rebuild (ops : List (String × String × Int)) (st : FileStorage)
    (h : ∀ k, mapLookup (rebuildMap st.file) k = mapLookup st.URLMap k) :
    ∀ k, mapLookup (rebuildMap (execStores st ops).file) k
        = mapLookup ((execStores st ops).URLMap) k := by
  induction ops generalizing st with
  | nil => exact h
  | cons op rest ih =>
      show ∀ k, mapLookup (rebuildMap (execStores (storeURL st op.1 op.2.1 op.2.2).2 rest).file) k = _
      exact ih _ (storeURL_preserves_rebuild st op.1 op.2.1 op.2.2 h)

/-- C4.  For every sequence of successful `StoreURL` writes in the file
backend, reconstructing the engine from the log (a fresh `NewFileStorage`
over the appended file) gives an index agreeing with the pre-restart index
on every key — in particular every stored `(code, owner)` key returns the
same `originalURL`; and when the log holds several lines for the same
`(short_url, user_id)` key, the rebuilt index holds the last line's values. -/
theorem c4_replay_correctness :
    (∀ (b : Bool) (ops : List (String × String × Int)) (k : URLMapKey),
        mapLookup ((newFileStorage b [] ((execStores (initialStorage b) ops).file)).URLMap) k
          = mapLookup ((execStores (initialStorage b) ops).URLMap) k) ∧
    (∀ (log : List LogLine) (k : URLMapKey),
        mapLookup (rebuildMap log) k = lastLineForKey log k) := by
  constructor
  · intro b ops k
    have hbase : ∀ k, mapLookup (rebuildMap (initialStorage b).file) k
        = mapLookup (initialStorage b).URLMap k := by
      intro k; rfl
    rw [newFileStorage_URLMap]
    exact execStores_rebuild ops (initialStorage b) hbase k
  · intro log k
    have h := mapLookup_foldl_rebuildStep log [] k
    rw [rebuildMap, h]
    show (lastLineForKey log k).or (mapLookup [] k) = _
    rw [show mapLookup [] k = none from rfl, Option.or_none]

/-!  Small consequences of code-freshness hypotheses. -/

theorem mapLookup_eq_none_of_code (m : URLMap) (c : String) (uid : Int)
    (h : ∀ p ∈ m, p.1.shortURL ≠ c) : mapLookup m ⟨c, uid⟩ = none := by
  induction m with
  | nil => rfl
  | cons p rest ih =>
      have hp : p.1 ≠ (⟨c, uid⟩ : URLMapKey) := by
        intro hh
        exact h p (List.mem_cons_self p rest) (by rw [hh])
      simp only [mapLookup, if_neg hp]
      exact ih (fun q hq => h q (List.mem_cons_of_mem p hq))

theorem keys_ne_of_code (m : URLMap) (c : String) (uid : Int)
    (h : ∀ p ∈ m, p.1.shortURL ≠ c) : ∀ p ∈ m, p.1 ≠ (⟨c, uid⟩ : URLMapKey) :=
  fun p hp hh => h p hp (by rw [hh])

theorem uniq_append_single (m : URLMap) (c : String) (k : URLMapKey) (v : SavedURL)
    (h : ∀ p ∈ m, p.1.shortURL ≠ c) :
    ∀ p ∈ m ++ [(k, v)], p.1.shortURL = c → p = (k, v) := by
  intro p hp hpc
  rcases List.mem_append.mp hp with h1 | h1
  · exact absurd hpc (h p h1)
  · simpa using h1

theorem mapInsert_append_self (m : URLMap) (k : URLMapKey) (v v2 : SavedURL)
    (h : ∀ p ∈ m, p.1 ≠ k) :
    mapInsert (m ++ [(k, v)]) k v2 = m ++ [(k, v2)] := by
  induction m with
  | nil => simp [mapInsert]
  | cons p rest ih =>
      have hp : p.1 ≠ k := h p (List.mem_cons_self p rest)
      simp only [List.cons_append, mapInsert, if_neg hp, List.append_eq]
      rw [ih (fun q hq => h q (List.mem_cons_of_mem p hq))]

/-!  The claims. -/

/-- C1, refuted as stated: the claim quantifies over EVERY state, but in a
state that already holds a record under `("c", 1)` the first `StoreURL`
call returns `alreadyExisted = true`, not `false`. -/
theorem c1_counterexample :
    ¬ ((storeURL
        { isWithFile := true
          URLMap := [(⟨"c", 1⟩, ⟨0, "c", "u0", 1, false⟩)]
          lastUserID := 1, usedUserIDs := [1]
          file := [LogLine.ok ⟨0, "c", "u0", 1, false⟩] } "c" "u" 1).1 = false) := by
  decide

/-- C1, amended: for every state of the file backend in which `(code,
owner)` is not yet present, calling `StoreURL(code, url, owner)` twice in
succession returns `alreadyExisted = false` then `true`, the second call
does not mutate the store, and the record under `(code, owner)` still has
the `originalURL` stored by the first call. -/
theorem c1_store_idempotent (st : FileStorage) (code url : String) (owner : Int)
    (h : mapLookup st.URLMap ⟨code, owner⟩ = none) :
    (storeURL st code url owner).1 = false ∧
    (storeURL (storeURL st code url owner).2 code url owner).1 = true ∧
    (storeURL (storeURL st code url owner).2 code url owner).2
      = (storeURL st code url owner).2 ∧
    (mapLookup ((storeURL (storeURL st code url owner).2 code url owner).2).URLMap
        ⟨code, owner⟩).map SavedURL.originalURL = some url := by
  have h1 := storeURL_of_absent st code url owner h
  have hrec : mapLookup ((storeURL st code url owner).2).URLMap ⟨code, owner⟩
      = some (storedRecord st code url owner) := by
    rw [h1]
    exact mapLookup_mapInsert_self _ _ _
  have h2 := storeURL_of_present (storeURL st code url owner).2 code url owner _ hrec
  refine ⟨by rw [h1], by rw [h2], by rw [h2], ?_⟩
  rw [h2, hrec]
  rfl

/-- Witness for the amended C1 at a fresh backend and `("c", "u", 1)`. -/
theorem c1_store_idempotent_witness :
    mapLookup (initialStorage true).URLMap ⟨"c", 1⟩ = none ∧
    ((storeURL (initialStorage true) "c" "u" 1).1 = false ∧
     (storeURL (storeURL (initialStorage true) "c" "u" 1).2 "c" "u" 1).1 = true ∧
     (storeURL (storeURL (initialStorage true) "c" "u" 1).2 "c" "u" 1).2
       = (storeURL (initialStorage true) "c" "u" 1).2 ∧
     (mapLookup ((storeURL (storeURL (initialStorage true) "c" "u" 1).2 "c" "u" 1).2).URLMap
         ⟨"c", 1⟩).map SavedURL.originalURL = some "u") :=
  ⟨by decide, c1_store_idempotent (initialStorage true) "c" "u" 1 (by decide)⟩

/-- C2, refuted as stated: after storing `"c" ↦ "https://x"` for owner 1
and a completed `DeleteByUserID ["c"] 1`, the record is marked
`deleted = true`, yet the scoped lookup `GetURL "c" 1` still returns the
URL with `found = true` — it does not stop returning it. -/
theorem c2_counterexample :
    (mapLookup (deleteByUserID
          (storeURL (initialStorage true) "c" "https://x" 1).2 ["c"] 1).URLMap
        ⟨"c", 1⟩).map SavedURL.deleted = some true ∧
    getURL (deleteByUserID
        (storeURL (initialStorage true) "c" "https://x" 1).2 ["c"] 1) "c" 1
      = ("https://x", true) := by
  decide

/-- C2, amended: once `DeleteByUserID [code] owner` completes on a state
whose only record for the code sits at `(code, owner)`, that record is
marked `deleted = true`, but the scoped lookup `GetURL code owner` still
returns `(originalURL, true)`: `GetURL` reads the map entry without
filtering on the `Deleted` flag. -/
theorem c2_delete_then_scoped_lookup (st : FileStorage) (c : String) (owner : Int)
    (rec : SavedURL)
    (hmem : (⟨c, owner⟩, rec) ∈ st.URLMap)
    (huniq : ∀ p ∈ st.URLMap, p.1.shortURL = c → p = (⟨c, owner⟩, rec)) :
    mapLookup (deleteByUserID st [c] owner).URLMap ⟨c, owner⟩
      = some { rec with deleted := true } ∧
    getURL (deleteByUserID st [c] owner) c owner
      = (rec.originalURL, true) := by
  have hfind : findByShortURL st.URLMap c = some (⟨c, owner⟩, rec) :=
    findByShortURL_of_unique st.URLMap c _ hmem rfl huniq
  rw [deleteByUserID_single st c owner _ hfind]
  refine ⟨mapLookup_mapInsert_self _ _ _, ?_⟩
  simp [getURL, mapLookup_mapInsert_self]

/-- Witness for the amended C2 at a one-record backend. -/
theorem c2_delete_then_scoped_lookup_witness :
    ((⟨"c", 1⟩, (⟨0, "c", "u", 1, false⟩ : SavedURL)) ∈
        (newFileStoragerWithoutReadingData true
          [(⟨"c", 1⟩, ⟨0, "c", "u", 1, false⟩)] []).URLMap) ∧
    (mapLookup (deleteByUserID (newFileStoragerWithoutReadingData true
          [(⟨"c", 1⟩, ⟨0, "c", "u", 1, false⟩)] []) ["c"] 1).URLMap ⟨"c", 1⟩
        = some ⟨0, "c", "u", 1, true⟩ ∧
     getURL (deleteByUserID (newFileStoragerWithoutReadingData true
          [(⟨"c", 1⟩, ⟨0, "c", "u", 1, false⟩)] []) ["c"] 1) "c" 1
        = ("u", true)) :=
  ⟨by decide,
   c2_delete_then_scoped_lookup _ "c" 1 ⟨0, "c", "u", 1, false⟩ (by decide) (by decide)⟩

/-- C3: in the file backend, after owner `a` stores a previously unused
code `c` and `DeleteByUserID [c] a` completes, `GetURLForAnyUserID c` still
returns the record but with `Deleted = true`, and `ReadAllDataForUserID a`
still lists a record with code `c`. -/
theorem c3_soft_delete_visibility (st : FileStorage) (c u : String) (a : Int)
    (hfresh : ∀ p ∈ st.URLMap, p.1.shortURL ≠ c) :
    getURLForAnyUserID (deleteByUserID (storeURL st c u a).2 [c] a) c
      = ({ storedRecord st c u a with deleted := true }, true) ∧
    ∃ r ∈ readAllDataForUserID (deleteByUserID (storeURL st c u a).2 [c] a) a,
      r.shortURL = c := by
  have hnone := mapLookup_eq_none_of_code st.URLMap c a hfresh
  have h1 := storeURL_of_absent st c u a hnone
  have hins := mapInsert_of_not_mem st.URLMap ⟨c, a⟩ (storedRecord st c u a)
    (keys_ne_of_code st.URLMap c a hfresh)
  have hmem1 : ((⟨c, a⟩ : URLMapKey), storedRecord st c u a)
      ∈ (storeURL st c u a).2.URLMap := by
    rw [h1, hins]
    exact List.mem_append_right _ (by simp)
  have huniq1 : ∀ p ∈ (storeURL st c u a).2.URLMap, p.1.shortURL = c →
      p = (⟨c, a⟩, storedRecord st c u a) := by
    rw [h1, hins]
    exact uniq_append_single st.URLMap c _ _ hfresh
  have hfind := findByShortURL_of_unique _ c _ hmem1 rfl huniq1
  have hdel := deleteByUserID_single (storeURL st c u a).2 c a _ hfind
  constructor
  · rw [hdel]
    show getURLForAnyUserID _ c = _
    have hmap2 : mapInsert ((storeURL st c u a).2.URLMap) ⟨c, a⟩
          { storedRecord st c u a with deleted := true }
        = st.URLMap ++ [(⟨c, a⟩, { storedRecord st c u a with deleted := true })] := by
      rw [h1, hins]
      exact mapInsert_append_self st.URLMap _ _ _ (keys_ne_of_code st.URLMap c a hfresh)
    have hmem2 : ((⟨c, a⟩ : URLMapKey), { storedRecord st c u a with deleted := true })
        ∈ st.URLMap ++ [(⟨c, a⟩, { storedRecord st c u a with deleted := true })] :=
      List.mem_append_right _ (by simp)
    have hfind2 := findByShortURL_of_unique
      (st.URLMap ++ [(⟨c, a⟩, { storedRecord st c u a with deleted := true })]) c _
      hmem2 rfl (uniq_append_single st.URLMap c _ _ hfresh)
    simp only [getURLForAnyUserID, hmap2, hfind2]
  · refine ⟨storedRecord st c u a, ?_, rfl⟩
    rw [hdel]
    show storedRecord st c u a ∈ readAllDataForUserID _ a
    have hfile : (LogLine.ok (storedRecord st c u a)) ∈
        ((storeURL st c u a).2.file ++
          if (storeURL st c u a).2.isWithFile
          then [LogLine.ok { storedRecord st c u a with deleted := true }] else []) := by
      apply List.mem_append_left
      rw [h1]
      exact List.mem_append_right _ (by simp)
    refine List.mem_filter.mpr ⟨?_, by simp [storedRecord]⟩
    exact List.mem_map.mpr ⟨LogLine.ok (storedRecord st c u a), hfile, rfl⟩

/-- Witness for C3 at a fresh backend and `("c", "u", owner 1)`. -/
theorem c3_soft_delete_visibility_witness :
    (∀ p ∈ (initialStorage true).URLMap, p.1.shortURL ≠ "c") ∧
    (getURLForAnyUserID (deleteByUserID (storeURL (initialStorage true) "c" "u" 1).2 ["c"] 1) "c"
       = ({ storedRecord (initialStorage true) "c" "u" 1 with deleted := true }, true) ∧
     ∃ r ∈ readAllDataForUserID
        (deleteByUserID (storeURL (initialStorage true) "c" "u" 1).2 ["c"] 1) 1,
       r.shortURL = "c") :=
  ⟨by decide, c3_soft_delete_visibility (initialStorage true) "c" "u" 1 (by decide)⟩

/-- C5: if `StoreURL c u1 a` succeeded on a state with no record for code
`c`, and `b ≠ a`, then the scoped `GetURL c b` reports not-found, while
`GetURLForAnyUserID c` returns the stored record regardless of owner. -/
theorem c5_ownership_scoping (st : FileStorage) (c u : String) (a b : Int)
    (hfresh : ∀ p ∈ st.URLMap, p.1.shortURL ≠ c) (hba : b ≠ a) :
    (getURL (storeURL st c u a).2 c b).2 = false ∧
    getURLForAnyUserID (storeURL st c u a).2 c = (storedRecord st c u a, true) := by
  have hnone := mapLookup_eq_none_of_code st.URLMap c a hfresh
  have h1 := storeURL_of_absent st c u a hnone
  have hins := mapInsert_of_not_mem st.URLMap ⟨c, a⟩ (storedRecord st c u a)
    (keys_ne_of_code st.URLMap c a hfresh)
  constructor
  · have hb : mapLookup ((storeURL st c u a).2).URLMap ⟨c, b⟩ = none := by
      rw [h1]
      show mapLookup (mapInsert st.URLMap ⟨c, a⟩ _) ⟨c, b⟩ = none
      rw [mapLookup_mapInsert_ne _ _ _ _ (by intro hh; injection hh with h1 h2; exact hba h2)]
      exact mapLookup_eq_none_of_code st.URLMap c b hfresh
    simp [getURL, hb]
  · have hmem1 : ((⟨c, a⟩ : URLMapKey), storedRecord st c u a)
        ∈ (storeURL st c u a).2.URLMap := by
      rw [h1, hins]
      exact List.mem_append_right _ (by simp)
    have huniq1 : ∀ p ∈ (storeURL st c u a).2.URLMap, p.1.shortURL = c →
        p = (⟨c, a⟩, storedRecord st c u a) := by
      rw [h1, hins]
      exact uniq_append_single st.URLMap c _ _ hfresh
    simp [getURLForAnyUserID, findByShortURL_of_unique _ c _ hmem1 rfl huniq1]

/-- Witness for C5 at a fresh backend, owner 1 storing and owner 2 reading. -/
theorem c5_ownership_scoping_witness :
    ((∀ p ∈ (initialStorage true).URLMap, p.1.shortURL ≠ "c") ∧ (2 : Int) ≠ 1) ∧
    ((getURL (storeURL (initialStorage true) "c" "u1" 1).2 "c" 2).2 = false ∧
     getURLForAnyUserID (storeURL (initialStorage true) "c" "u1" 1).2 "c"
       = (storedRecord (initialStorage true) "c" "u1" 1, true)) :=
  ⟨⟨by decide, by decide⟩,
   c5_ownership_scoping (initialStorage true) "c" "u1" 1 2 (by decide) (by decide)⟩

/-- C6, refuted as stated: on a fresh backend,
`NewFileStoragerWithoutReadingData` seeds the identity counter at 1 with
`usedUserIDs = [1]`; `GetLastUserID` then returns 2, but
`IsItCorrectUserID 2` is false on the resulting state — an allocated id is
not automatically known. -/
theorem c6_counterexample :
    isItCorrectUserID (getLastUserID (newFileStoragerWithoutReadingData true [] [])).2
      (getLastUserID (newFileStoragerWithoutReadingData true [] [])).1 = false := by
  decide

/-- The counter is Go's wrapping 64-bit `int`: from
`lastUserID = maxInt64 - 1` the next two `GetLastUserID` results are
`maxInt64` and then `minInt64` — not increasing. -/
theorem getLastUserID_wraps_at_maxInt64 :
    (getLastUserID
        { isWithFile := true
          URLMap := []
          lastUserID := 2 ^ 63 - 2, usedUserIDs := [1]
          file := [] }).1 = 2 ^ 63 - 1 ∧
    (getLastUserID (getLastUserID
        { isWithFile := true
          URLMap := []
          lastUserID := 2 ^ 63 - 2, usedUserIDs := [1]
          file := [] }).2).1
      = -(2 ^ 63) := by
  constructor
  · decide
  · decide

/-- C6, amended: as long as the 64-bit counter does not overflow (it wraps
at `maxInt64 = 2 ^ 63 - 1`), repeated `GetLastUserID` calls return strictly
increasing values; and `IsItCorrectUserID id` is true for every id passed
to `SaveUserID` — an id returned by `GetLastUserID` becomes known only once
the caller registers it with `SaveUserID` (as the HTTP auth middleware
does). -/
theorem c6_identity_monotone_and_registration :
    (∀ st : FileStorage,
        -(2 ^ 63) ≤ st.lastUserID → st.lastUserID + 2 < 2 ^ 63 →
        (getLastUserID st).1 < (getLastUserID (getLastUserID st).2).1) ∧
    (∀ (st : FileStorage) (id0 : Int),
        isItCorrectUserID (saveUserID st id0) id0 = true) := by
  constructor
  · intro st hlo hhi
    show (getLastUserID st).1 < (getLastUserID (getLastUserID st).2).1
    simp only [getLastUserID, int64Wrap]
    omega
  · intro st id0
    simp [isItCorrectUserID, saveUserID, List.any_append]

/-- Witness for the amended C6 at a fresh backend (counter at 1, far from
overflow) and id 7 registered via `SaveUserID`. -/
theorem c6_identity_monotone_and_registration_witness :
    (-(2 ^ 63) ≤ (newFileStoragerWithoutReadingData true [] []).lastUserID ∧
     (newFileStoragerWithoutReadingData true [] []).lastUserID + 2 < 2 ^ 63) ∧
    ((getLastUserID (newFileStoragerWithoutReadingData true [] [])).1
       < (getLastUserID (getLastUserID (newFileStoragerWithoutReadingData true [] [])).2).1 ∧
     isItCorrectUserID (saveUserID (newFileStoragerWithoutReadingData true [] []) 7) 7
       = true) :=
  ⟨⟨by decide, by decide⟩,
   ⟨c6_identity_monotone_and_registration.1 (newFileStoragerWithoutReadingData true [] [])
      (by decide) (by decide),
    c6_identity_monotone_and_registration.2 (newFileStoragerWithoutReadingData true [] []) 7⟩⟩

/-- C7: `GenerateShortURL` — the first 8 characters of the URL-safe,
padding-free base64 encoding of the SHA-256 hash of the URL's bytes —
reproduces the spec's fixed points on `"google.com"`, `"yandex.ru"` and
the empty string. -/
theorem c7_generate_short_url_fixed_points :
    GenerateShortURL "google.com" = "1MnZAnMm" ∧
    GenerateShortURL "yandex.ru" = "eeILJFID" ∧
    GenerateShortURL "" = "47DEQpj8" :=
  ⟨rfl, rfl, rfl⟩

/-- C8, refuted as stated: replaying a log consisting of one unparseable
line does NOT leave the rebuilt index empty — the loop body runs on the
zero value `json.Unmarshal` left behind, so the index gains an entry at key
`("", 0)` holding the zero record. -/
theorem c8_counterexample :
    (newFileStorage true [] [LogLine.bad]).URLMap ≠ [] ∧
    mapLookup (newFileStorage true [] [LogLine.bad]).URLMap ⟨"", 0⟩
      = some zeroSavedURL := by
  constructor
  · decide
  · decide

/-- C8, amended: an unparseable log line does not abort replay — the scan
continues over the remaining lines — but the line is not skipped either: it
is processed exactly as a parseable line holding the zero-value record
(empty URLs, user id 0, `deleted = false`), which is inserted into the
rebuilt index under key `("", 0)`. -/
theorem c8_bad_line_acts_as_zero_record (pre post : List LogLine) (st : FileStorage) :
    (pre ++ LogLine.bad :: post).foldl applyLogLine st
      = (pre ++ LogLine.ok zeroSavedURL :: post).foldl applyLogLine st := by
  rw [List.foldl_append, List.foldl_append, List.foldl_cons, List.foldl_cons]
  rfl

/-- C9: when code `c` is stored only under owner `b` and `a ≠ b`,
`DeleteByUserID [c] a` leaves the record at `(c, b)` unchanged (so not
marked deleted) and inserts at `(c, a)` a copy of `b`'s record with
`Deleted = true`. -/
theorem c9_delete_frame_effect (st : FileStorage) (c : String) (a b : Int)
    (rec : SavedURL)
    (hmem : (⟨c, b⟩, rec) ∈ st.URLMap)
    (huniq : ∀ p ∈ st.URLMap, p.1.shortURL = c → p = (⟨c, b⟩, rec))
    (hab : a ≠ b) :
    mapLookup (deleteByUserID st [c] a).URLMap ⟨c, b⟩ = some rec ∧
    mapLookup (deleteByUserID st [c] a).URLMap ⟨c, a⟩
      = some { rec with deleted := true } := by
  have hfind := findByShortURL_of_unique st.URLMap c _ hmem rfl huniq
  rw [deleteByUserID_single st c a _ hfind]
  constructor
  · show mapLookup (mapInsert st.URLMap ⟨c, a⟩ _) ⟨c, b⟩ = some rec
    rw [mapLookup_mapInsert_ne _ _ _ _ (by intro hh; injection hh with h1 h2; exact hab h2.symm)]
    exact mapLookup_of_unique st.URLMap (⟨c, b⟩, rec) hmem
      (fun p hp hpk => huniq p hp (by rw [hpk]))
  · exact mapLookup_mapInsert_self _ _ _

/-- Witness for C9: owner 2 holds code `"c"`; owner 1 deletes it. -/
theorem c9_delete_frame_effect_witness :
    (((⟨"c", 2⟩, (⟨0, "c", "u", 2, false⟩ : SavedURL)) ∈
        (newFileStoragerWithoutReadingData true
          [(⟨"c", 2⟩, ⟨0, "c", "u", 2, false⟩)] []).URLMap) ∧ (1 : Int) ≠ 2) ∧
    (mapLookup (deleteByUserID (newFileStoragerWithoutReadingData true
          [(⟨"c", 2⟩, ⟨0, "c", "u", 2, false⟩)] []) ["c"] 1).URLMap ⟨"c", 2⟩
        = some ⟨0, "c", "u", 2, false⟩ ∧
     mapLookup (deleteByUserID (newFileStoragerWithoutReadingData true
          [(⟨"c", 2⟩, ⟨0, "c", "u", 2, false⟩)] []) ["c"] 1).URLMap ⟨"c", 1⟩
        = some ⟨0, "c", "u", 2, true⟩) :=
  ⟨⟨by decide, by decide⟩,
   c9_delete_frame_effect _ "c" 1 2 ⟨0, "c", "u", 2, false⟩ (by decide) (by decide) (by decide)⟩

/-- C10: `ReadAllDataForUserID` answers from the log file without
deduplication: with file persistence enabled, storing a fresh code `c` for
owner `a` and then completing `DeleteByUserID [c] a` appends two log lines,
so the listing for `a` gains exactly two records with code `c` — the stored
one with `Deleted = false` and the delete marker with `Deleted = true`. -/
theorem c10_read_for_user_lists_log_lines (st : FileStorage) (c u : String) (a : Int)
    (hfresh : ∀ p ∈ st.URLMap, p.1.shortURL ≠ c) (hw : st.isWithFile = true) :
    readAllDataForUserID (deleteByUserID (storeURL st c u a).2 [c] a) a
      = readAllDataForUserID st a ++
        [storedRecord st c u a, { storedRecord st c u a with deleted := true }] := by
  have hnone := mapLookup_eq_none_of_code st.URLMap c a hfresh
  have h1 := storeURL_of_absent st c u a hnone
  have hins := mapInsert_of_not_mem st.URLMap ⟨c, a⟩ (storedRecord st c u a)
    (keys_ne_of_code st.URLMap c a hfresh)
  have hmem1 : ((⟨c, a⟩ : URLMapKey), storedRecord st c u a)
      ∈ (storeURL st c u a).2.URLMap := by
    rw [h1, hins]
    exact List.mem_append_right _ (by simp)
  have huniq1 : ∀ p ∈ (storeURL st c u a).2.URLMap, p.1.shortURL = c →
      p = (⟨c, a⟩, storedRecord st c u a) := by
    rw [h1, hins]
    exact uniq_append_single st.URLMap c _ _ hfresh
  have hfind := findByShortURL_of_unique _ c _ hmem1 rfl huniq1
  rw [deleteByUserID_single (storeURL st c u a).2 c a _ hfind]
  have hw1 : (storeURL st c u a).2.isWithFile = true := by rw [h1]; exact hw
  show readAllDataForUserID _ a = _
  simp only [readAllDataForUserID, hw1, if_true, h1]
  simp [List.map_append, List.filter_append, parseLine, storedRecord, List.filter, hw]

/-- Witness for C10 at a fresh file-writing backend and `("c", "u", 1)`. -/
theorem c10_read_for_user_lists_log_lines_witness :
    ((∀ p ∈ (initialStorage true).URLMap, p.1.shortURL ≠ "c") ∧
      (initialStorage true).isWithFile = true) ∧
    readAllDataForUserID (deleteByUserID (storeURL (initialStorage true) "c" "u" 1).2 ["c"] 1) 1
      = readAllDataForUserID (initialStorage true) 1 ++
        [storedRecord (initialStorage true) "c" "u" 1,
         { storedRecord (initialStorage true) "c" "u" 1 with deleted := true }] :=
  ⟨⟨by decide, by decide⟩,
   c10_read_for_user_lists_log_lines (initialStorage true) "c" "u" 1 (by decide) (by decide)⟩

end UrlShort
